import Mathlib

/-!
Shallow embedding of the prasang-bank client page (the client-side filtering
variant): topic normalization (`norm`), label derivation (`prettyTopic`),
chip construction (`uniqueTopicsCaseInsensitive`), the client-side topic
filter over records, the per-card topic label rendering, and a small
event model of the alive-flag fetch discipline.

Modelling conventions:
* JavaScript strings are Lean `String`s; the character-level operations
  (`trim`, `toLowerCase`, `toUpperCase`, `split`, `join`) are embedded as
  structural functions over `List Char`.  `Char.toLower`/`Char.toUpper`
  implement exactly the ASCII case mapping that the source relies on.
* JS `Array.prototype.filter/map/every/some/includes` become `List.filter`,
  `List.map`, `List.all`, `List.any`, `List.contains`.
* A JS `Map` with insertion order is an association list extended at the
  tail; a JS `Set` built from an array keeps the first occurrence of each
  element in order (`dedupFirst`).
* `label.localeCompare` is modelled as the lexicographic order on `String`;
  `Array.prototype.sort` (stable, comparator-driven) as `List.mergeSort`.
-/

namespace PrasangBank

/-- Record type of the page: `type Prasang` (id, prasang, notes, topics,
event_date, created_at); `topics: string[] | null` becomes
`Option (List String)`. -/
structure Prasang where
  id : Int
  prasang : String
  notes : Option String
  topics : Option (List String)
  event_date : Option String
  created_at : String
deriving DecidableEq, Repr

/-- A row returned by the topics view: `{ topic: string }`. -/
structure TopicRow where
  topic : String
deriving DecidableEq, Repr

/-- `type TopicChip = { value: string; label: string }`. -/
structure TopicChip where
  value : String
  label : String
deriving DecidableEq, Repr

/-- JS `s.trim()` on the character list: drop whitespace from the front,
then from the back. -/
def trimChars (l : List Char) : List Char :=
  ((l.dropWhile Char.isWhitespace).reverse.dropWhile Char.isWhitespace).reverse

/-- `const norm = (s) => s.trim().toLowerCase()`. -/
def norm (s : String) : String :=
  String.mk ((trimChars s.data).map Char.toLower)

/-- JS `s.split(sep)` for a single-character separator `sep`; `acc` holds the
characters of the current piece in reverse.  `"".split(sep) = [""]`,
`"-".split("-") = ["", ""]`. -/
def splitOnChar (sep : Char) (acc : List Char) : List Char → List (List Char)
  | [] => [acc.reverse]
  | c :: cs =>
    if c = sep then acc.reverse :: splitOnChar sep [] cs
    else splitOnChar sep (c :: acc) cs

/-- JS `s.split(/\s+/)`: split on maximal runs of whitespace.  The state is
`some acc` while inside a piece (characters in reverse) and `none` right
after a separator run has begun; a leading run yields a leading empty piece
and a trailing run a trailing empty piece, exactly as in JS. -/
def splitWsAux : Option (List Char) → List Char → List (List Char)
  | st, [] => [(st.getD []).reverse]
  | some acc, c :: cs =>
    if c.isWhitespace then acc.reverse :: splitWsAux none cs
    else splitWsAux (some (c :: acc)) cs
  | none, c :: cs =>
    if c.isWhitespace then splitWsAux none cs
    else splitWsAux (some [c]) cs

/-- JS `s.split(/\s+/)` starting in word state. -/
def splitWs (l : List Char) : List (List Char) :=
  splitWsAux (some []) l

/-- JS `arr.join(sep)` over character lists: `[].join = ""`, singleton is
itself, otherwise interleave the separator. -/
def joinWith (sep : List Char) : List (List Char) → List Char
  | [] => []
  | [x] => x
  | x :: xs => x ++ sep ++ joinWith sep xs

/-- The word transformer of `prettyTopic`:
`w ? w[0].toUpperCase() + w.slice(1).toLowerCase() : w`. -/
def titleWord : List Char → List Char
  | [] => []
  | c :: cs => c.toUpper :: cs.map Char.toLower

/-- `prettyTopic` on character lists: split on `'-'`, within each segment
split on whitespace runs, title-case each word, join words with `" "`,
join segments with `"-"`. -/
def prettyTopicChars (l : List Char) : List Char :=
  joinWith ['-'] ((splitOnChar '-' [] l).map (fun part =>
    joinWith [' '] ((splitWs part).map titleWord)))

/-- `function prettyTopic(raw)` from the source. -/
def prettyTopic (raw : String) : String :=
  String.mk (prettyTopicChars raw.data)

/-- One step of the `for` loop of `uniqueTopicsCaseInsensitive`:
`const v = norm(r.topic); if (!map.has(v)) map.set(v, prettyTopic(r.topic))`.
A JS `Map` keeps insertion order, so a new key is appended at the tail. -/
def insertChip (m : List (String × String)) (t : String) : List (String × String) :=
  if m.any (fun e => e.1 == norm t) then m
  else m ++ [(norm t, prettyTopic t)]

/-- The whole `for (const r of rows)` loop, threading the map. -/
def buildChipMap (m : List (String × String)) : List TopicRow → List (String × String)
  | [] => m
  | r :: rs => buildChipMap (insertChip m r.topic) rs

/-- The sort comparator `(a, b) => a.label.localeCompare(b.label)`, modelled
as the lexicographic order on labels. -/
def chipLE (a b : TopicChip) : Bool :=
  decide (a.label ≤ b.label)

/-- `function uniqueTopicsCaseInsensitive(rows)` from the source: build the
value→label map in input order, turn entries into chips, sort by label. -/
def uniqueTopicsCaseInsensitive (rows : List TopicRow) : List TopicChip :=
  ((buildChipMap [] rows).map (fun e => ⟨e.1, e.2⟩)).mergeSort chipLE

/-- JS `Array.from(new Set(l))`: keep the first occurrence of each element,
in order; `seen` accumulates the elements already emitted. -/
def dedupFirstAux (seen : List String) : List String → List String
  | [] => []
  | x :: xs =>
    if seen.contains x then dedupFirstAux seen xs
    else x :: dedupFirstAux (x :: seen) xs

/-- JS `Array.from(new Set(l))` with empty initial memory. -/
def dedupFirst (l : List String) : List String :=
  dedupFirstAux [] l

/-- `const pts = (p.topics || []).map(norm)`. -/
def recordTopics (p : Prasang) : List String :=
  (p.topics.getD []).map norm

/-- The body of the filter callback: `if (pts.length === 0) return false;
return matchAll ? want.every(t => pts.includes(t)) : want.some(t => pts.includes(t))`. -/
def passes (want : List String) (matchAll : Bool) (p : Prasang) : Bool :=
  if (recordTopics p).length = 0 then false
  else if matchAll then want.all (fun t => (recordTopics p).contains t)
  else want.any (fun t => (recordTopics p).contains t)

/-- The `useMemo` filter: `if (selected.length === 0) return rawPrasangs;
const want = new Set(selected.map(norm)); return rawPrasangs.filter(...)`. -/
def filterPrasangs (rawPrasangs : List Prasang) (selected : List String) (matchAll : Bool) : List Prasang :=
  if selected.length = 0 then rawPrasangs
  else rawPrasangs.filter (passes (dedupFirst (selected.map norm)) matchAll)

/-- The per-card topic rendering:
`Array.from(new Set((p.topics || []).map(norm))).map(prettyTopic)`. -/
def cardTopicLabels (p : Prasang) : List String :=
  (dedupFirst ((p.topics.getD []).map norm)).map prettyTopic

/-! ### Character-level facts about the ASCII case mapping -/

lemma char_toNat_inj {a b : Char} (h : a.toNat = b.toNat) : a = b := by
  have ha : Char.ofNat a.toNat = a := Char.ofNat_toNat a
  have hb : Char.ofNat b.toNat = b := Char.ofNat_toNat b
  rw [← ha, ← hb, h]

lemma toNat_ofNat_valid {n : Nat} (h : n.isValidChar) : (Char.ofNat n).toNat = n := by
  rw [Char.ofNat, dif_pos h]
  rfl

lemma toLower_eq (c : Char) :
    Char.toLower c = if c.toNat ≥ 65 ∧ c.toNat ≤ 90 then Char.ofNat (c.toNat + 32) else c := rfl

lemma toUpper_eq (c : Char) :
    Char.toUpper c = if c.toNat ≥ 97 ∧ c.toNat ≤ 122 then Char.ofNat (c.toNat - 32) else c := rfl

lemma toLower_toNat (c : Char) :
    (Char.toLower c).toNat = if c.toNat ≥ 65 ∧ c.toNat ≤ 90 then c.toNat + 32 else c.toNat := by
  rw [toLower_eq]
  split
  · rename_i h
    exact toNat_ofNat_valid (Or.inl (by omega))
  · rfl

lemma toLower_eq_self (c : Char) (h : ¬ (c.toNat ≥ 65 ∧ c.toNat ≤ 90)) : Char.toLower c = c := by
  rw [toLower_eq, if_neg h]

lemma toLower_eq_hyphen_iff (c : Char) : Char.toLower c = '-' ↔ c = '-' := by
  constructor
  · intro h
    have hn : (Char.toLower c).toNat = ('-').toNat := congrArg Char.toNat h
    rw [toLower_toNat] at hn
    have h45 : ('-').toNat = 45 := rfl
    by_cases hc : c.toNat ≥ 65 ∧ c.toNat ≤ 90
    · rw [if_pos hc] at hn
      omega
    · rw [if_neg hc] at hn
      exact char_toNat_inj (by omega)
  · intro h
    subst h
    rfl

lemma isWhitespace_eq_false_of_ge (c : Char) (h : 64 ≤ c.toNat) : c.isWhitespace = false := by
  have h1 : c ≠ ' ' := fun e => absurd (e ▸ h) (by decide)
  have h2 : c ≠ '\t' := fun e => absurd (e ▸ h) (by decide)
  have h3 : c ≠ '\r' := fun e => absurd (e ▸ h) (by decide)
  have h4 : c ≠ '\n' := fun e => absurd (e ▸ h) (by decide)
  simp [Char.isWhitespace, h1, h2, h3, h4]

lemma isWhitespace_toLower (c : Char) : (Char.toLower c).isWhitespace = c.isWhitespace := by
  by_cases hc : c.toNat ≥ 65 ∧ c.toNat ≤ 90
  · have h1 : (Char.toLower c).toNat = c.toNat + 32 := by rw [toLower_toNat, if_pos hc]
    rw [isWhitespace_eq_false_of_ge _ (by omega), isWhitespace_eq_false_of_ge _ (by omega)]
  · rw [toLower_eq_self c hc]

lemma toUpper_toLower (c : Char) : Char.toUpper (Char.toLower c) = Char.toUpper c := by
  by_cases hc : c.toNat ≥ 65 ∧ c.toNat ≤ 90
  · have h1 : (Char.toLower c).toNat = c.toNat + 32 := by rw [toLower_toNat, if_pos hc]
    rw [toUpper_eq (Char.toLower c), if_pos (by omega), toUpper_eq c, if_neg (by omega), h1]
    have : c.toNat + 32 - 32 = c.toNat := by omega
    rw [this, Char.ofNat_toNat]
  · rw [toLower_eq_self c hc]

lemma toLower_toLower (c : Char) : Char.toLower (Char.toLower c) = Char.toLower c := by
  by_cases hc : c.toNat ≥ 65 ∧ c.toNat ≤ 90
  · have h1 : (Char.toLower c).toNat = c.toNat + 32 := by rw [toLower_toNat, if_pos hc]
    exact toLower_eq_self _ (by omega)
  · rw [toLower_eq_self c hc, toLower_eq_self c hc]

/-! ### `prettyTopic` is invariant under ASCII lowercasing -/

lemma splitOnChar_map_toLower (l : List Char) :
    ∀ acc : List Char,
      splitOnChar '-' (acc.map Char.toLower) (l.map Char.toLower) =
        (splitOnChar '-' acc l).map (List.map Char.toLower) := by
  induction l with
  | nil =>
    intro acc
    simp [splitOnChar]
  | cons c cs ih =>
    intro acc
    simp only [List.map_cons, splitOnChar]
    by_cases hc : c = '-'
    · rw [if_pos ((toLower_eq_hyphen_iff c).mpr hc), if_pos hc]
      have h0 := ih []
      simp only [List.map_nil] at h0
      simp [h0]
    · rw [if_neg (fun h => hc ((toLower_eq_hyphen_iff c).mp h)), if_neg hc]
      have h1 := ih (c :: acc)
      simpa using h1

lemma splitWsAux_map_toLower (l : List Char) :
    ∀ st : Option (List Char),
      splitWsAux (st.map (List.map Char.toLower)) (l.map Char.toLower) =
        (splitWsAux st l).map (List.map Char.toLower) := by
  induction l with
  | nil =>
    intro st
    cases st <;> simp [splitWsAux]
  | cons c cs ih =>
    intro st
    cases st with
    | some acc =>
      simp only [Option.map, List.map_cons, splitWsAux, isWhitespace_toLower]
      by_cases hw : c.isWhitespace
      · rw [if_pos hw, if_pos hw]
        have h0 := ih none
        simpa using h0
      · rw [if_neg hw, if_neg hw]
        have h1 := ih (some (c :: acc))
        simpa using h1
    | none =>
      simp only [Option.map, List.map_cons, splitWsAux, isWhitespace_toLower]
      by_cases hw : c.isWhitespace
      · rw [if_pos hw, if_pos hw]
        have h0 := ih none
        simpa using h0
      · rw [if_neg hw, if_neg hw]
        have h1 := ih (some [c])
        simpa using h1

lemma titleWord_map_toLower (w : List Char) : titleWord (w.map Char.toLower) = titleWord w := by
  cases w with
  | nil => rfl
  | cons c cs =>
    simp only [List.map_cons, titleWord, toUpper_toLower, List.map_map]
    congr 1
    exact List.map_congr_left (fun a _ => by simp [toLower_toLower a])

lemma prettyTopicChars_map_toLower (l : List Char) :
    prettyTopicChars (l.map Char.toLower) = prettyTopicChars l := by
  rw [prettyTopicChars, prettyTopicChars]
  have h1 : splitOnChar '-' [] (l.map Char.toLower) =
      (splitOnChar '-' [] l).map (List.map Char.toLower) := by
    have := splitOnChar_map_toLower l []
    simpa using this
  rw [h1, List.map_map]
  congr 1
  apply List.map_congr_left
  intro part _
  simp only [Function.comp_apply]
  have h2 : splitWs (part.map Char.toLower) = (splitWs part).map (List.map Char.toLower) := by
    have := splitWsAux_map_toLower part (some [])
    simpa [splitWs] using this
  rw [splitWs] at h2
  rw [splitWs, h2, List.map_map]
  congr 1
  apply List.map_congr_left
  intro w _
  simp only [Function.comp_apply]
  exact titleWord_map_toLower w

/-! ### Trimming lemmas and idempotence of `norm` -/

lemma trimChars_eq_rdrop (l : List Char) :
    trimChars l = (l.dropWhile Char.isWhitespace).rdropWhile Char.isWhitespace := rfl

lemma dropWhile_rdropWhile_fixed {p : Char → Bool} {l : List Char}
    (hl : l.dropWhile p = l) :
    (l.rdropWhile p).dropWhile p = l.rdropWhile p := by
  cases l with
  | nil => simp [List.rdropWhile]
  | cons c cs =>
    have hc : p c = false := by
      by_contra hpc
      have hpc' : p c = true := by
        cases h' : p c
        · exact absurd h' hpc
        · rfl
      rw [List.dropWhile_cons_of_pos hpc'] at hl
      have hlen : (cs.dropWhile p).length ≤ cs.length :=
        (List.dropWhile_suffix p).sublist.length_le
      have : (c :: cs).length = cs.length + 1 := rfl
      rw [← hl] at this
      omega
    have hcb : ¬ p c = true := by rw [hc]; exact Bool.false_ne_true
    rw [List.rdropWhile, List.reverse_cons, List.dropWhile_append]
    by_cases he : (cs.reverse.dropWhile p).isEmpty
    · rw [if_pos he]
      simp [hcb]
    · rw [if_neg he]
      rw [List.reverse_append]
      simp only [List.reverse_cons, List.reverse_nil, List.nil_append, List.singleton_append]
      exact List.dropWhile_cons_of_neg hcb

lemma trimChars_idem (l : List Char) : trimChars (trimChars l) = trimChars l := by
  rw [trimChars_eq_rdrop l, trimChars_eq_rdrop]
  rw [dropWhile_rdropWhile_fixed (List.dropWhile_idempotent _ _)]
  exact List.rdropWhile_idempotent _ _

lemma trimChars_map_toLower (l : List Char) :
    trimChars (l.map Char.toLower) = (trimChars l).map Char.toLower := by
  have hws : (Char.isWhitespace ∘ Char.toLower) = Char.isWhitespace :=
    funext isWhitespace_toLower
  rw [trimChars, trimChars, List.dropWhile_map, hws, ← List.map_reverse,
    List.dropWhile_map, hws, ← List.map_reverse]

lemma norm_norm (s : String) : norm (norm s) = norm s := by
  rw [norm, norm]
  congr 1
  show (trimChars ((trimChars s.data).map Char.toLower)).map Char.toLower =
    (trimChars s.data).map Char.toLower
  rw [trimChars_map_toLower, trimChars_idem, List.map_map]
  exact List.map_congr_left (fun a _ => by simp [toLower_toLower a])

/-! ### First-occurrence deduplication does not change `all`/`any` -/

lemma dedupFirstAux_all (p : String → Bool) :
    ∀ (xs seen : List String),
      (dedupFirstAux seen xs).all p = xs.all (fun x => seen.contains x || p x) := by
  intro xs
  induction xs with
  | nil => intro seen; rfl
  | cons x rest ih =>
    intro seen
    rw [dedupFirstAux]
    by_cases hx : seen.contains x
    · rw [if_pos hx, ih, List.all_cons, hx]
      simp
    · rw [if_neg hx, List.all_cons, ih, List.all_cons]
      rw [Bool.not_eq_true] at hx
      cases hpx : p x with
      | false => simp only [hpx, hx, Bool.false_and, Bool.false_or]
      | true =>
        have hpoint : ∀ y, ((x :: seen).contains y || p y) = (seen.contains y || p y) := by
          intro y
          rw [List.contains_cons]
          by_cases hyx : (y == x) = true
          · have hyx' : y = x := eq_of_beq hyx
            subst hyx'
            simp [hx, hpx, hyx]
          · rw [Bool.not_eq_true] at hyx
            simp [hyx]
        simp only [hpoint, hx, hpx, Bool.true_and, Bool.false_or]

lemma dedupFirstAux_any (p : String → Bool) :
    ∀ (xs seen : List String),
      (dedupFirstAux seen xs).any p = xs.any (fun x => !(seen.contains x) && p x) := by
  intro xs
  induction xs with
  | nil => intro seen; rfl
  | cons x rest ih =>
    intro seen
    rw [dedupFirstAux]
    by_cases hx : seen.contains x
    · rw [if_pos hx, ih, List.any_cons, hx]
      simp
    · rw [if_neg hx, List.any_cons, ih, List.any_cons]
      rw [Bool.not_eq_true] at hx
      cases hpx : p x with
      | true => simp only [hpx, hx, Bool.not_false, Bool.true_and, Bool.true_or]
      | false =>
        have hpoint : ∀ y, (!((x :: seen).contains y) && p y) = (!(seen.contains y) && p y) := by
          intro y
          rw [List.contains_cons]
          by_cases hyx : (y == x) = true
          · have hyx' : y = x := eq_of_beq hyx
            subst hyx'
            simp [hx, hpx, hyx]
          · rw [Bool.not_eq_true] at hyx
            simp [hyx]
        simp only [hpoint, hx, hpx, Bool.and_false, Bool.not_false, Bool.true_and, Bool.false_or]

lemma dedupFirst_all (l : List String) (p : String → Bool) :
    (dedupFirst l).all p = l.all p := by
  rw [dedupFirst, dedupFirstAux_all]
  simp

lemma dedupFirst_any (l : List String) (p : String → Bool) :
    (dedupFirst l).any p = l.any p := by
  rw [dedupFirst, dedupFirstAux_any]
  simp

/-! ### Claim theorems on the filter: C2, C8, C10 -/

/-- C2: for every record list and either match mode, filtering with an empty
selected topic set returns the input record list unchanged, in the same
order (identity). -/
theorem filter_empty_selection_identity (R : List Prasang) (m : Bool) :
    filterPrasangs R [] m = R := rfl

/-- C8: the record filter is idempotent — filtering an already-filtered list
with the same selection and match mode changes nothing.  Determinism and
purity hold by construction: `filterPrasangs` is a function of exactly its
three arguments. -/
theorem filter_idempotent (R : List Prasang) (S : List String) (m : Bool) :
    filterPrasangs (filterPrasangs R S m) S m = filterPrasangs R S m := by
  by_cases h : S.length = 0
  · rw [filterPrasangs, if_pos h]
  · rw [filterPrasangs, if_neg h]
    rw [show filterPrasangs R S m = R.filter (passes (dedupFirst (S.map norm)) m) from by
      rw [filterPrasangs, if_neg h]]
    rw [List.filter_filter]
    exact List.filter_congr (fun a _ => Bool.and_self _)

/-- C10: the record filter is invariant under normalization of the selection:
the filter re-applies `norm` to each selected value, so pre-normalizing the
selection changes nothing. -/
theorem filter_selection_norm_invariant (R : List Prasang) (S : List String) (m : Bool) :
    filterPrasangs R S m = filterPrasangs R (S.map norm) m := by
  rw [filterPrasangs, filterPrasangs, List.length_map]
  have h : (S.map norm).map norm = S.map norm := by
    rw [List.map_map]
    exact List.map_congr_left (fun a _ => by simp [norm_norm a])
  rw [h]

/-! ### Claim C7: chip label vs card label agreement -/

/-- C7 counterexample: the equation `prettyTopic s = prettyTopic (norm s)`
fails at `s = " x"`: the left side keeps the leading space (`" X"`) while the
right side trims it (`"X"`). -/
theorem prettyTopic_norm_agreement_cex :
    prettyTopic " x" ≠ prettyTopic (norm " x") := by decide

/-- C7 (amended): for every raw topic string with no leading or trailing
whitespace (`trim` fixes it), the label computed from the raw spelling and
the label computed from its normalized value agree:
`prettyTopic s = prettyTopic (norm s)`. -/
theorem prettyTopic_norm_agreement_trimmed (s : String)
    (h : trimChars s.data = s.data) :
    prettyTopic s = prettyTopic (norm s) := by
  rw [prettyTopic, prettyTopic, norm, h]
  show String.mk (prettyTopicChars s.data) =
    String.mk (prettyTopicChars (s.data.map Char.toLower))
  rw [prettyTopicChars_map_toLower]

/-- C7 witness: the amended agreement instantiated at `"guru purnima"`. -/
theorem prettyTopic_norm_agreement_trimmed_witness :
    trimChars ("guru purnima").data = ("guru purnima").data ∧
      prettyTopic "guru purnima" = prettyTopic (norm "guru purnima") :=
  ⟨by decide, prettyTopic_norm_agreement_trimmed "guru purnima" (by decide)⟩

/-! ### Claims C1 and C3: match semantics of the filter -/

/-- C1: with a non-empty, already-normalized selection, the filter returns
exactly the order-preserving subsequence of records passing the match test —
under `matchAll` a record passes iff every selected value lies in its
normalized topic set, otherwise iff the intersection is non-empty; no record
is duplicated or synthesized (the result is a sublist of the input). -/
theorem filter_match_semantics (R : List Prasang) (selected : List String) (m : Bool)
    (hne : selected ≠ []) (hnorm : ∀ v ∈ selected, norm v = v) :
    filterPrasangs R selected m =
      R.filter (fun p =>
        if m then decide (∀ v ∈ selected, v ∈ recordTopics p)
        else decide (∃ v ∈ selected, v ∈ recordTopics p)) ∧
      (filterPrasangs R selected m).Sublist R := by
  have hlen : ¬ (selected.length = 0) := fun h0 => hne (List.length_eq_zero.mp h0)
  have hmap : selected.map norm = selected :=
    (List.map_congr_left hnorm).trans (List.map_id selected)
  have hfil : filterPrasangs R selected m = R.filter (passes (dedupFirst selected) m) := by
    rw [filterPrasangs, if_neg hlen, hmap]
  refine ⟨?_, by rw [hfil]; exact List.filter_sublist _⟩
  rw [hfil]
  apply List.filter_congr
  intro p _
  obtain ⟨a, as, rfl⟩ := List.exists_cons_of_ne_nil hne
  by_cases hp : (recordTopics p).length = 0
  · have hpts : recordTopics p = [] := List.length_eq_zero.mp hp
    rw [passes, if_pos hp, hpts]
    cases m with
    | true =>
      rw [if_pos rfl]
      symm
      rw [decide_eq_false_iff_not]
      intro hall
      exact (List.not_mem_nil a) (hall a (List.mem_cons_self a as))
    | false =>
      rw [if_neg Bool.false_ne_true]
      symm
      rw [decide_eq_false_iff_not]
      rintro ⟨v, _, hv⟩
      exact (List.not_mem_nil v) hv
  · rw [passes, if_neg hp]
    cases m with
    | true =>
      rw [if_pos rfl, if_pos rfl, dedupFirst_all]
      apply Bool.eq_iff_iff.mpr
      simp [List.all_eq_true, List.elem_iff]
    | false =>
      rw [if_neg Bool.false_ne_true, if_neg Bool.false_ne_true, dedupFirst_any]
      apply Bool.eq_iff_iff.mpr
      simp [List.any_eq_true, List.elem_iff]

/-- C3: with a non-empty selection, a record whose topics field is
null/absent or an empty list never appears in the filter output, in either
match mode. -/
theorem filter_excludes_topicless (R : List Prasang) (selected : List String) (m : Bool)
    (p : Prasang) (hne : selected ≠ []) (ht : p.topics = none ∨ p.topics = some []) :
    p ∉ filterPrasangs R selected m := by
  intro hmem
  have hlen : ¬ (selected.length = 0) := fun h0 => hne (List.length_eq_zero.mp h0)
  rw [filterPrasangs, if_neg hlen] at hmem
  have hpass := (List.mem_filter.mp hmem).2
  have hpts : recordTopics p = [] := by
    rcases ht with h | h <;> simp [recordTopics, h]
  rw [passes, if_pos (by rw [hpts]; rfl)] at hpass
  exact Bool.false_ne_true hpass

/-- Sample record from the spec's worked example: `A{topics:["X","y"]}`. -/
def recA : Prasang :=
  { id := 1, prasang := "A", notes := none, topics := some ["X", "y"],
    event_date := none, created_at := "2024-01-01T00:00:00Z" }

/-- Sample record from the spec's worked example: `B{topics:["Y"]}`. -/
def recB : Prasang :=
  { id := 2, prasang := "B", notes := none, topics := some ["Y"],
    event_date := none, created_at := "2024-01-02T00:00:00Z" }

/-- Sample record from the spec's worked example: `C{topics:[]}`. -/
def recC : Prasang :=
  { id := 3, prasang := "C", notes := none, topics := some [],
    event_date := none, created_at := "2024-01-03T00:00:00Z" }

/-- C1 witness: the match-test characterization instantiated at the spec's
example records with selection `{"x","y"}` and `matchAll = true`. -/
theorem filter_match_semantics_witness :
    (["x", "y"] ≠ ([] : List String)) ∧ (∀ v ∈ ["x", "y"], norm v = v) ∧
      (filterPrasangs [recA, recB, recC] ["x", "y"] true =
        [recA, recB, recC].filter (fun p =>
          if true then decide (∀ v ∈ ["x", "y"], v ∈ recordTopics p)
          else decide (∃ v ∈ ["x", "y"], v ∈ recordTopics p)) ∧
        (filterPrasangs [recA, recB, recC] ["x", "y"] true).Sublist [recA, recB, recC]) :=
  ⟨by decide, by decide,
    filter_match_semantics [recA, recB, recC] ["x", "y"] true (by decide) (by decide)⟩

/-- C3 witness: the topicless record `C` is excluded for selection `{"x"}`
in match-any mode. -/
theorem filter_excludes_topicless_witness :
    (["x"] ≠ ([] : List String)) ∧ (recC.topics = none ∨ recC.topics = some []) ∧
      recC ∉ filterPrasangs [recA, recB, recC] ["x"] false :=
  ⟨by decide, Or.inr rfl,
    filter_excludes_topicless [recA, recB, recC] ["x"] false recC (by decide) (Or.inr rfl)⟩

/-! ### Claims C4 and C5: the chip list -/

lemma mem_keys_insertChip {m : List (String × String)} {k : String} (t : String)
    (h : k ∈ m.map Prod.fst) : k ∈ (insertChip m t).map Prod.fst := by
  rw [insertChip]
  split
  · exact h
  · rw [List.map_append]
    exact List.mem_append_left _ h

lemma norm_mem_keys_insertChip (m : List (String × String)) (t : String) :
    norm t ∈ (insertChip m t).map Prod.fst := by
  rw [insertChip]
  split
  · rename_i hany
    rcases List.any_eq_true.mp hany with ⟨e, hem, hbeq⟩
    have : e.1 = norm t := eq_of_beq hbeq
    rw [← this]
    exact List.mem_map_of_mem Prod.fst hem
  · rw [List.map_append]
    exact List.mem_append_right _ (by simp)

lemma buildChipMap_keys_nodup :
    ∀ (rows : List TopicRow) (m : List (String × String)),
      m.Pairwise (fun a b => a.1 ≠ b.1) →
        (buildChipMap m rows).Pairwise (fun a b => a.1 ≠ b.1) := by
  intro rows
  induction rows with
  | nil => intro m h; exact h
  | cons r rs ih =>
    intro m h
    rw [buildChipMap]
    apply ih
    rw [insertChip]
    split
    · exact h
    · rename_i hany
      have hfalse : m.any (fun e => e.1 == norm r.topic) = false := by
        cases h' : m.any (fun e => e.1 == norm r.topic)
        · rfl
        · exact absurd h' hany
      rw [List.pairwise_append]
      refine ⟨h, List.pairwise_singleton _ _, ?_⟩
      intro e hem b hb
      have hb' : b = (norm r.topic, prettyTopic r.topic) := List.mem_singleton.mp hb
      subst hb'
      intro heq
      have := List.any_eq_false.mp hfalse e hem
      exact this (by rw [heq]; exact beq_self_eq_true _)

lemma buildChipMap_mem :
    ∀ (rows : List TopicRow) (m : List (String × String)) (e : String × String),
      e ∈ buildChipMap m rows →
        e ∈ m ∨ (e.1 ∉ m.map Prod.fst ∧
          ∃ r : TopicRow, rows.find? (fun row => norm row.topic == e.1) = some r ∧
            e.2 = prettyTopic r.topic) := by
  intro rows
  induction rows with
  | nil => intro m e h; exact Or.inl h
  | cons r rs ih =>
    intro m e h
    rw [buildChipMap] at h
    rcases ih _ e h with hin | ⟨hnot, r', hfind, hlab⟩
    · rw [insertChip] at hin
      split at hin
      · exact Or.inl hin
      · rename_i hany
        rcases List.mem_append.mp hin with hm | hlast
        · exact Or.inl hm
        · have he : e = (norm r.topic, prettyTopic r.topic) := List.mem_singleton.mp hlast
          subst he
          refine Or.inr ⟨?_, r, ?_, rfl⟩
          · intro hk
            rcases List.mem_map.mp hk with ⟨e', he'm, he'fst⟩
            exact hany (List.any_eq_true.mpr ⟨e', he'm, by rw [he'fst]; exact beq_self_eq_true _⟩)
          · exact List.find?_cons_of_pos _ (beq_self_eq_true _)
    · have hkey : norm r.topic ∈ (insertChip m r.topic).map Prod.fst :=
        norm_mem_keys_insertChip m r.topic
      have hne : e.1 ≠ norm r.topic := fun heq => hnot (heq ▸ hkey)
      refine Or.inr ⟨fun hk => hnot (mem_keys_insertChip _ hk), r', ?_, hlab⟩
      have hpr : (norm r.topic == e.1) = false := by
        rw [beq_eq_false_iff_ne]
        exact fun heq => hne heq.symm
      simp only [List.find?_cons, hpr]
      exact hfind

lemma chipLE_trans : ∀ (a b c : TopicChip), chipLE a b → chipLE b c → chipLE a c := by
  intro a b c hab hbc
  exact decide_eq_true (le_trans (of_decide_eq_true hab) (of_decide_eq_true hbc))

lemma chipLE_total : ∀ (a b : TopicChip), chipLE a b || chipLE b a := by
  intro a b
  rw [chipLE, chipLE]
  rcases le_total a.label b.label with h | h
  · rw [decide_eq_true h, Bool.true_or]
  · rw [decide_eq_true h, Bool.or_true]

lemma uniqueTopics_value_nodup (rows : List TopicRow) :
    (uniqueTopicsCaseInsensitive rows).Pairwise (fun a b => a.value ≠ b.value) := by
  rw [uniqueTopicsCaseInsensitive]
  have hperm := List.mergeSort_perm
    ((buildChipMap [] rows).map (fun e => (⟨e.1, e.2⟩ : TopicChip))) chipLE
  apply (hperm.pairwise_iff (fun hab => fun e => hab e.symm)).mpr
  rw [List.pairwise_map]
  exact buildChipMap_keys_nodup rows [] List.Pairwise.nil

lemma uniqueTopics_sorted (rows : List TopicRow) :
    (uniqueTopicsCaseInsensitive rows).Pairwise (fun a b => a.label ≤ b.label) := by
  have h := List.sorted_mergeSort chipLE_trans chipLE_total
    ((buildChipMap [] rows).map (fun e => (⟨e.1, e.2⟩ : TopicChip)))
  exact h.imp (fun hab => of_decide_eq_true hab)

/-- C4: for every raw topic list, the chip output has no two chips with equal
`value`, is sorted ascending by `label` (under the embedded string order
modelling `localeCompare`), and empty input yields empty output. -/
theorem uniqueTopics_nodup_sorted (rows : List TopicRow) :
    (uniqueTopicsCaseInsensitive rows).Pairwise (fun a b => a.value ≠ b.value) ∧
      (uniqueTopicsCaseInsensitive rows).Pairwise (fun a b => a.label ≤ b.label) ∧
      uniqueTopicsCaseInsensitive [] = [] :=
  ⟨uniqueTopics_value_nodup rows, uniqueTopics_sorted rows,
    by simp [uniqueTopicsCaseInsensitive, buildChipMap]⟩

lemma uniqueTopics_diwali :
    uniqueTopicsCaseInsensitive [⟨"Diwali"⟩, ⟨"diwali "⟩, ⟨" DIWALI"⟩] =
      [⟨"diwali", "Diwali"⟩] := by
  rw [uniqueTopicsCaseInsensitive]
  rw [show buildChipMap [] [⟨"Diwali"⟩, ⟨"diwali "⟩, ⟨" DIWALI"⟩] =
    [("diwali", "Diwali")] from by decide]
  simp

/-- C5: every chip's label is `prettyTopic` of the first raw spelling in
input order that normalizes to the chip's value (first occurrence wins); and
on `["Diwali", "diwali ", " DIWALI"]` the output is exactly one chip with
value `"diwali"` and label `"Diwali"`. -/
theorem chip_label_first_occurrence (rows : List TopicRow) (c : TopicChip)
    (hc : c ∈ uniqueTopicsCaseInsensitive rows) :
    (∃ r : TopicRow, rows.find? (fun row => norm row.topic == c.value) = some r ∧
        c.label = prettyTopic r.topic) ∧
      uniqueTopicsCaseInsensitive [⟨"Diwali"⟩, ⟨"diwali "⟩, ⟨" DIWALI"⟩] =
        [⟨"diwali", "Diwali"⟩] := by
  refine ⟨?_, uniqueTopics_diwali⟩
  rw [uniqueTopicsCaseInsensitive] at hc
  have hc' := List.mem_mergeSort.mp hc
  rcases List.mem_map.mp hc' with ⟨e, hem, hec⟩
  rcases buildChipMap_mem rows [] e hem with h0 | ⟨_, r, hfind, hlab⟩
  · exact absurd h0 (List.not_mem_nil e)
  · subst hec
    exact ⟨r, hfind, hlab⟩

/-- C5 witness: the first-occurrence label rule applied to the chip produced
by the `["Diwali", "diwali ", " DIWALI"]` example. -/
theorem chip_label_first_occurrence_witness :
    ((⟨"diwali", "Diwali"⟩ : TopicChip) ∈
        uniqueTopicsCaseInsensitive [⟨"Diwali"⟩, ⟨"diwali "⟩, ⟨" DIWALI"⟩]) ∧
      ((∃ r : TopicRow,
          ([⟨"Diwali"⟩, ⟨"diwali "⟩, ⟨" DIWALI"⟩] : List TopicRow).find?
              (fun row => norm row.topic == (⟨"diwali", "Diwali"⟩ : TopicChip).value) = some r ∧
            (⟨"diwali", "Diwali"⟩ : TopicChip).label = prettyTopic r.topic) ∧
        uniqueTopicsCaseInsensitive [⟨"Diwali"⟩, ⟨"diwali "⟩, ⟨" DIWALI"⟩] =
          [⟨"diwali", "Diwali"⟩]) :=
  ⟨by rw [uniqueTopics_diwali]; exact List.mem_singleton_self _,
    chip_label_first_occurrence _ _ (by rw [uniqueTopics_diwali]; exact List.mem_singleton_self _)⟩

/-! ### Claim C6: the label-derivation algorithm -/

/-- Title-casing as the spec words it: capitalize the first character,
lowercase all the remaining characters; an empty word passes through
unchanged. -/
def titleCaseSpec (w : List Char) : List Char :=
  (w.take 1).map Char.toUpper ++ (w.drop 1).map Char.toLower

/-- `prettyLabel` as the spec describes it: split on hyphen characters,
split each hyphen-segment on runs of whitespace, title-case each word,
rejoin words with single spaces and segments with hyphens. -/
def prettyLabelSpec (s : String) : String :=
  String.mk (joinWith ['-'] ((splitOnChar '-' [] s.data).map (fun seg =>
    joinWith [' '] ((splitWs seg).map titleCaseSpec))))

lemma titleWord_eq_titleCaseSpec (w : List Char) : titleWord w = titleCaseSpec w := by
  cases w with
  | nil => rfl
  | cons c cs => rfl

/-- C6: `prettyTopic` computes exactly the spec's label-derivation algorithm,
and in particular maps `"guru-purnima"` to `"Guru-Purnima"` and
`"guru purnima"` to `"Guru Purnima"`. -/
theorem prettyTopic_algorithm (s : String) :
    prettyTopic s = prettyLabelSpec s ∧
      prettyTopic "guru-purnima" = "Guru-Purnima" ∧
      prettyTopic "guru purnima" = "Guru Purnima" := by
  refine ⟨?_, by decide, by decide⟩
  rw [prettyTopic, prettyLabelSpec, prettyTopicChars]
  rw [funext titleWord_eq_titleCaseSpec]

/-! ### Claim C9: superseded fetches are never committed -/

/-- Modelled from the code's alive-flag discipline together with the
host's effect semantics: each `start` is a new run of the fetch effect
(the cleanup of the previous run sets its `alive` flag to false, then a
fresh instance with a true flag is appended); `complete i r` is the
continuation of fetch `i` resolving, which commits `r` to displayed state
only if fetch `i`'s alive flag is still set (`if (!alive) return`). -/
inductive FetchEvent (α : Type) where
  | start : FetchEvent α
  | complete : Nat → α → FetchEvent α

/-- The observable state: one alive flag per initiated fetch, in initiation
order, plus the currently displayed result. -/
structure FetchState (α : Type) where
  alive : List Bool
  displayed : Option α

/-- The cleanup of the previous effect run: its (last) alive flag is set to
false. -/
def deactivateLast : List Bool → List Bool
  | [] => []
  | [_] => [false]
  | b :: c :: rest => b :: deactivateLast (c :: rest)

/-- One scheduler step. -/
def stepFetch {α : Type} (s : FetchState α) : FetchEvent α → FetchState α
  | .start => ⟨deactivateLast s.alive ++ [true], s.displayed⟩
  | .complete i r => if s.alive.getD i false then ⟨s.alive, some r⟩ else s

/-- Run a sequence of events. -/
def runFetch {α : Type} (s : FetchState α) : List (FetchEvent α) → FetchState α
  | [] => s
  | e :: es => runFetch (stepFetch s e) es

/-- Initial state: no fetch initiated, nothing displayed. -/
def initFetch {α : Type} : FetchState α :=
  ⟨[], none⟩

/-- Number of initiated fetches in an event sequence. -/
def countStarts {α : Type} : List (FetchEvent α) → Nat
  | [] => 0
  | .start :: es => countStarts es + 1
  | .complete _ _ :: es => countStarts es

lemma deactivateLast_length : ∀ l : List Bool, (deactivateLast l).length = l.length
  | [] => rfl
  | [_] => rfl
  | _ :: b :: rest => by
    simp [deactivateLast, deactivateLast_length (b :: rest)]

lemma alive_length_run {α : Type} :
    ∀ (es : List (FetchEvent α)) (s : FetchState α),
      (runFetch s es).alive.length = s.alive.length + countStarts es := by
  intro es
  induction es with
  | nil => intro s; rfl
  | cons e es ih =>
    intro s
    rw [runFetch, ih]
    cases e with
    | start =>
      have hstep : (stepFetch s FetchEvent.start).alive.length = s.alive.length + 1 := by
        simp [stepFetch, deactivateLast_length]
      rw [hstep]
      have hcnt : countStarts (FetchEvent.start :: es) = countStarts es + 1 := rfl
      rw [hcnt]
      omega
    | complete i r =>
      have hstep : (stepFetch s (FetchEvent.complete i r)).alive.length = s.alive.length := by
        rw [stepFetch]
        split
        · rfl
        · rfl
      rw [hstep]
      have hcnt : countStarts (FetchEvent.complete i r :: es) = countStarts es := rfl
      rw [hcnt]

/-- The reachable alive-flag lists: empty, or all false except the last. -/
def GoodAlive (l : List Bool) : Prop :=
  l = [] ∨ ∃ n, l = List.replicate n false ++ [true]

lemma deactivateLast_replicate_append :
    ∀ n : Nat, deactivateLast (List.replicate n false ++ [true]) =
      List.replicate (n + 1) false := by
  intro n
  induction n with
  | zero => rfl
  | succ k ih =>
    rw [List.replicate_succ, List.cons_append]
    have hcons : ∃ c cs, List.replicate k false ++ [true] = c :: cs := by
      cases h : List.replicate k false ++ [true] with
      | nil => exact absurd h (by simp)
      | cons c cs => exact ⟨c, cs, rfl⟩
    rcases hcons with ⟨c, cs, hcs⟩
    rw [hcs, deactivateLast, ← hcs, ih]
    simp [List.replicate_succ]

lemma goodAlive_step {α : Type} (s : FetchState α) (e : FetchEvent α)
    (h : GoodAlive s.alive) : GoodAlive (stepFetch s e).alive := by
  cases e with
  | start =>
    right
    rcases h with h0 | ⟨n, hn⟩
    · exact ⟨0, by simp [stepFetch, h0, deactivateLast]⟩
    · refine ⟨n + 1, ?_⟩
      simp only [stepFetch, hn, deactivateLast_replicate_append]
  | complete i r =>
    rw [stepFetch]
    split
    · exact h
    · exact h

lemma goodAlive_run {α : Type} :
    ∀ (es : List (FetchEvent α)) (s : FetchState α),
      GoodAlive s.alive → GoodAlive (runFetch s es).alive := by
  intro es
  induction es with
  | nil => intro s h; exact h
  | cons e es ih => intro s h; exact ih _ (goodAlive_step s e h)

/-- C9: only the most recently initiated fetch can commit: after any event
history, a completion for a fetch that is not the latest one leaves the
state unchanged; and in the concrete superseded-fetch scenario (start "a",
start "ab", "ab" resolves, then "a" resolves late) the displayed state is
"ab"'s result. -/
theorem fetch_superseded_discarded {α : Type} (es : List (FetchEvent α)) (i : Nat) (r : α)
    (h : i + 1 < countStarts es) :
    stepFetch (runFetch initFetch es) (.complete i r) = runFetch initFetch es ∧
      ∀ ra rb : α,
        (runFetch initFetch [.start, .start, .complete 1 rb, .complete 0 ra]).displayed =
          some rb := by
  refine ⟨?_, fun ra rb => rfl⟩
  have hg : GoodAlive (runFetch (initFetch (α := α)) es).alive :=
    goodAlive_run es _ (Or.inl rfl)
  have hlen : (runFetch (initFetch (α := α)) es).alive.length = countStarts es := by
    rw [alive_length_run]
    simp [initFetch]
  rw [stepFetch]
  rcases hg with h0 | ⟨n, hn⟩
  · rw [h0] at hlen
    simp only [List.length_nil] at hlen
    omega
  · have hlen' : n + 1 = countStarts es := by
      rw [hn] at hlen
      simpa using hlen
    have hi : i < n := by omega
    have hflag : (runFetch (initFetch (α := α)) es).alive.getD i false = false := by
      rw [hn, List.getD_eq_getElem?_getD, List.getElem?_append_left (by simpa using hi),
        List.getElem?_replicate, if_pos hi]
      rfl
    rw [hflag]
    rfl

/-- C9 witness: after two starts, a late completion of fetch 0 is discarded. -/
theorem fetch_superseded_discarded_witness :
    (0 + 1 < countStarts ([.start, .start] : List (FetchEvent Nat))) ∧
      (stepFetch (runFetch initFetch [.start, .start]) (.complete 0 5) =
          runFetch initFetch [.start, .start] ∧
        ∀ ra rb : Nat,
          (runFetch initFetch [.start, .start, .complete 1 rb, .complete 0 ra]).displayed =
            some rb) :=
  ⟨by decide, fetch_superseded_discarded [.start, .start] 0 5 (by decide)⟩

end PrasangBank
